import Mathlib

/-! Verification of the `secrets` package of Harokku/logreason.

This file shallowly embeds the secret-store component
(`internal/secrets/secrets.go`) and the cryptographic primitives it calls
(Go's `crypto/aes` + `crypto/cipher` AES-GCM, `encoding/json`,
`encoding/base64`) in Lean 4, and settles the frozen claims about it.

Modelling conventions:
* Go strings are modelled as `List Char` (sequences of Unicode scalar
  values); byte slices as `List Nat` (each entry a byte value).
* A Go `map[string]string` is modelled canonically as an association list
  sorted strictly by key (`Store`); `insertSecret` is map assignment.
* File-system and environment effects are passed explicitly: each load
  operation takes the outcome of its I/O (file missing, unreadable,
  content, mid-scan read error) as an argument.
* Functions from the Go standard library that `secrets.go` calls and whose
  sources are not part of the repository (`aes.NewCipher`, `cipher.NewGCM`
  `Seal`/`Open`, `encoding/json` marshal/unmarshal, `encoding/base64`)
  are modelled faithfully to their documented behaviour, including the
  AES block cipher, GHASH and the GCM panics on misuse.
-/

set_option maxRecDepth 10000

/-- A Go string, modelled as its sequence of Unicode scalar values. -/
abbrev Str := List Char

/-- Strict order on characters, by code point (Go compares strings
byte-wise; on UTF-8 encodings byte order agrees with code-point order). -/
def charLtB (a b : Char) : Bool := a.toNat < b.toNat

/-- Lexicographic strict order on strings (Go's `<` on strings). -/
def strLt : Str → Str → Bool
  | [], [] => false
  | [], _ :: _ => true
  | _ :: _, [] => false
  | a :: as, b :: bs => if charLtB a b then true else if charLtB b a then false else strLt as bs

/-- Canonical model of a Go `map[string]string`: an association list kept
strictly sorted by key. -/
abbrev Store := List (Str × Str)

/-- Map assignment `m[k] = v` on the canonical sorted representation. -/
def insertSecret : Store → Str → Str → Store
  | [], k, v => [(k, v)]
  | (k0, v0) :: rest, k, v =>
    if strLt k k0 then (k, v) :: (k0, v0) :: rest
    else if k = k0 then (k, v) :: rest
    else (k0, v0) :: insertSecret rest k v

/-- Map lookup `m[k]`. -/
def lookupSecret : Store → Str → Option Str
  | [], _ => none
  | (k0, v0) :: rest, k => if k = k0 then some v0 else lookupSecret rest k

/-- Well-formedness of the canonical representation: keys strictly
ascending (hence unique). -/
def SortedStore (s : Store) : Prop := List.Pairwise (fun a b => strLt a.1 b.1 = true) s

instance : DecidablePred SortedStore := fun s =>
  inferInstanceAs (Decidable (List.Pairwise _ s))

/-- Go `unicode.IsSpace` (the rune set of `unicode.White_Space`). -/
def isSpaceGo (c : Char) : Bool :=
  let n := c.toNat
  n = 0x9 ∨ n = 0xA ∨ n = 0xB ∨ n = 0xC ∨ n = 0xD ∨ n = 0x20 ∨ n = 0x85 ∨ n = 0xA0 ∨
  n = 0x1680 ∨ (0x2000 ≤ n ∧ n ≤ 0x200A) ∨ n = 0x2028 ∨ n = 0x2029 ∨ n = 0x202F ∨
  n = 0x205F ∨ n = 0x3000

/-- Go `strings.TrimSpace`, left half: drop leading white space. -/
def trimLeftSpace (s : Str) : Str := s.dropWhile isSpaceGo

/-- Go `strings.TrimSpace`, right half: drop trailing white space. -/
def trimRightSpace (s : Str) : Str := (s.reverse.dropWhile isSpaceGo).reverse

/-- Go `strings.TrimSpace`. -/
def trimSpace (s : Str) : Str := trimRightSpace (trimLeftSpace s)

/-- Go `strings.SplitN(s, "=", 2)`: `some (before, after)` split at the
first `'='`, or `none` when the string contains no `'='` (in which case
`SplitN` returns a single part and the callers skip the line/entry). -/
def splitFirstEq : Str → Option (Str × Str)
  | [] => none
  | c :: rest =>
    if c = '=' then some ([], rest)
    else match splitFirstEq rest with
      | none => none
      | some (k, v) => some (c :: k, v)

/-- Go `strings.TrimPrefix(s, pfx)`: strips `pfx` when it is a prefix,
otherwise returns `s` unchanged. -/
def trimPfx (s pfx : Str) : Str := if pfx.isPrefixOf s then s.drop pfx.length else s

namespace Manager

/-- The function `Manager.Set` (`secrets.go:106`): insert or overwrite, no validation. -/
def Set (m : Store) (key value : Str) : Store := insertSecret m key value

/-- The function `Manager.Get` (`secrets.go:88`): value and found flag. -/
def Get (m : Store) (key : Str) : Str × Bool :=
  match lookupSecret m key with
  | some v => (v, true)
  | none => ([], false)

/-- The function `Manager.GetOrDefault` (`secrets.go:97`). -/
def GetOrDefault (m : Store) (key dflt : Str) : Str :=
  let (v, exists?) := Get m key
  if exists? then v else dflt

/-- One iteration of the `LoadFromEnv` loop (`secrets.go:36-50`): `env`
is one `os.Environ()` entry (a raw `"NAME=VALUE"` string). The prefix
test is `strings.HasPrefix(env, prefix)` — on the whole entry string. -/
def loadFromEnvStep (pfx : Str) (s : Store) (env : Str) : Store :=
  if pfx.isPrefixOf env then
    match splitFirstEq env with
    | none => s
    | some (name, value) => insertSecret s (trimPfx name pfx) value
  else s

/-- The function `Manager.LoadFromEnv` (`secrets.go:32`): scan the environment entries
in order; the Go function always returns `nil`, so only the resulting
store is modelled. -/
def LoadFromEnv (environ : List Str) (pfx : Str) (m : Store) : Store :=
  environ.foldl (loadFromEnvStep pfx) m

/-- Body of the `LoadFromDotEnvFile` scanner loop (`secrets.go:162-185`)
applied to one raw line. -/
def processLine (s : Store) (raw : Str) : Store :=
  let line := trimSpace raw
  if line = [] then s
  else if ['#'].isPrefixOf line then s
  else match splitFirstEq line with
    | none => s
    | some (k0, v0) =>
      let key := trimSpace k0
      let value := trimSpace v0
      let value :=
        if 1 < value.length ∧ (value.getD 0 ' ' = '"' ∨ value.getD 0 ' ' = '\'') ∧
            value.getD 0 ' ' = value.getD (value.length - 1) ' '
        then (value.drop 1).dropLast else value
      insertSecret s key value

/-- Error kinds of the load/save operations, as classified by the spec;
the Go code returns wrapped `error` strings with exactly these causes. -/
inductive LoadErr | notFound | ioError | parseError | cryptoError
deriving DecidableEq

/-- Outcome of reading a whole file (`os.Stat` + `os.ReadFile`). -/
inductive FileInput
  | missing
  | unreadable
  | content (data : List Char)

/-- Outcome of opening and scanning a file line-by-line
(`os.Stat`, `os.Open`, `bufio.Scanner`): the scanner yields the lines it
could read; `scanErr` is whether `scanner.Err()` reports a read error
after the loop. -/
inductive DotEnvInput
  | missing
  | openFail
  | content (lines : List Str) (scanErr : Bool)

/-- The function `Manager.LoadFromDotEnvFile` (`secrets.go:144`): note that the lines
are merged into the store *while scanning*, before `scanner.Err()` is
checked. -/
def LoadFromDotEnvFile (m : Store) (f : DotEnvInput) : Option LoadErr × Store :=
  match f with
  | .missing => (some .notFound, m)
  | .openFail => (some .ioError, m)
  | .content lines scanErr =>
    let m2 := lines.foldl processLine m
    (if scanErr then some .ioError else none, m2)

/-- The function `Manager.LoadFromEnvVar` (`secrets.go:129`): the environment is the
association list of name/value pairs; `os.LookupEnv` is `lookup`. -/
def LoadFromEnvVar (environ : List (Str × Str)) (m : Store) (key : Str) : Bool × Store :=
  match environ.lookup key with
  | none => (false, m)
  | some value => (true, insertSecret m key value)

end Manager

/-! Section: AES-GCM (Go `crypto/aes` + `crypto/cipher`, called by `secrets.go:355-382`).

The repository's `encrypt`/`decrypt` delegate to the Go standard library.
The library's behaviour is modelled here: `aes.NewCipher` accepts key
lengths 16, 24 and 32 (AES-128/192/256) and returns `KeySizeError`
otherwise; `cipher.NewGCM` over AES never fails; GCM `Seal` and `Open`
panic when the nonce is not exactly 12 bytes. The block cipher itself is
the Rijndael cipher computed from the GF(2^8) field operations. -/

/-- Multiplication in GF(2^8) modulo the AES polynomial `x^8+x^4+x^3+x+1`. -/
def gf8mul (a b : Nat) : Nat :=
  (List.range 8).foldl
    (fun acc _ =>
      let p := acc.1; let x := acc.2.1; let y := acc.2.2
      (if y % 2 = 1 then p ^^^ x else p,
       (if x / 128 % 2 = 1 then ((x * 2) ^^^ 0x11b) % 256 else (x * 2) % 256, y / 2)))
    (0, (a % 256, b % 256)) |>.1

/-- Power in GF(2^8). -/
def gf8pow (a : Nat) : Nat → Nat
  | 0 => 1
  | n + 1 => gf8mul a (gf8pow a n)

/-- Multiplicative inverse in GF(2^8) (0 maps to 0), via `a^254`. -/
def gf8inv (a : Nat) : Nat := if a % 256 = 0 then 0 else gf8pow a 254

/-- Rotate an 8-bit value left by `n`. -/
def rotl8 (x n : Nat) : Nat := ((x <<< n) ||| (x >>> (8 - n))) % 256

/-- The AES S-box, from its algebraic definition: multiplicative inverse
followed by the affine transform. -/
def sbox (a : Nat) : Nat :=
  let x := gf8inv a
  x ^^^ rotl8 x 1 ^^^ rotl8 x 2 ^^^ rotl8 x 3 ^^^ rotl8 x 4 ^^^ 0x63

/-- Big-endian 32-bit word from four bytes. -/
def word4 (b0 b1 b2 b3 : Nat) : Nat :=
  (b0 % 256) <<< 24 ||| (b1 % 256) <<< 16 ||| (b2 % 256) <<< 8 ||| (b3 % 256)

/-- Byte `i` (0 = most significant) of a 32-bit word. -/
def wordByte (w i : Nat) : Nat := (w >>> (8 * (3 - i))) % 256

/-- The function `SubWord`: S-box applied to each byte of a word. -/
def subWord (w : Nat) : Nat :=
  word4 (sbox (wordByte w 0)) (sbox (wordByte w 1)) (sbox (wordByte w 2)) (sbox (wordByte w 3))

/-- The function `RotWord`: rotate a word left by one byte. -/
def rotWord (w : Nat) : Nat := ((w <<< 8) ||| (w >>> 24)) % (2 ^ 32)

/-- AES round constant for round `i` (1-based): `x^(i-1)` in GF(2^8). -/
def rcon (i : Nat) : Nat := (gf8pow 2 (i - 1)) <<< 24

/-- The initial words of the key schedule: the key bytes packed big-endian. -/
def keyWords (key : List Nat) : List Nat :=
  (List.range (key.length / 4)).map fun i =>
    word4 (key.getD (4 * i) 0) (key.getD (4 * i + 1) 0)
      (key.getD (4 * i + 2) 0) (key.getD (4 * i + 3) 0)

/-- The Rijndael key-expansion loop, adding `count` further words. -/
def expandWords (nk : Nat) (w : List Nat) : Nat → List Nat
  | 0 => w
  | count + 1 =>
    let i := w.length
    let temp := w.getD (i - 1) 0
    let temp :=
      if i % nk = 0 then subWord (rotWord temp) ^^^ rcon (i / nk)
      else if 6 < nk ∧ i % nk = 4 then subWord temp
      else temp
    expandWords nk (w ++ [w.getD (i - nk) 0 ^^^ temp]) count

/-- Number of AES rounds for a given key length (10/12/14). -/
def aesRounds (key : List Nat) : Nat := key.length / 4 + 6

/-- The full key schedule: `4 * (rounds + 1)` words. -/
def roundKeys (key : List Nat) : List Nat :=
  let nk := key.length / 4
  expandWords nk (keyWords key) (4 * (aesRounds key + 1) - nk)

/-- The function `AddRoundKey` for round `r`: state byte `i` sits at row `i % 4`,
column `i / 4`; it is xored with byte `i % 4` of word `w[4r + i/4]`. -/
def addRoundKey (st w : List Nat) (r : Nat) : List Nat :=
  (List.range 16).map fun i => st.getD i 0 ^^^ wordByte (w.getD (4 * r + i / 4) 0) (i % 4)

/-- The function `SubBytes`. -/
def subBytesL (st : List Nat) : List Nat :=
  (List.range 16).map fun i => sbox (st.getD i 0)

/-- The function `ShiftRows`: row `r` rotates left by `r` columns. -/
def shiftRows (st : List Nat) : List Nat :=
  (List.range 16).map fun i => st.getD (i % 4 + 4 * ((i / 4 + i % 4) % 4)) 0

/-- Coefficient matrix of `MixColumns`. -/
def mcCoef (r j : Nat) : Nat := [2, 3, 1, 1].getD ((j + 4 - r) % 4) 0

/-- The function `MixColumns`. -/
def mixColumns (st : List Nat) : List Nat :=
  (List.range 16).map fun i =>
    let c := i / 4
    let r := i % 4
    gf8mul (mcCoef r 0) (st.getD (4 * c) 0) ^^^ gf8mul (mcCoef r 1) (st.getD (4 * c + 1) 0) ^^^
      gf8mul (mcCoef r 2) (st.getD (4 * c + 2) 0) ^^^ gf8mul (mcCoef r 3) (st.getD (4 * c + 3) 0)

/-- AES block encryption of a 16-byte block. -/
def aesEncBlock (key block : List Nat) : List Nat :=
  let w := roundKeys key
  let nr := aesRounds key
  let st0 := addRoundKey ((List.range 16).map fun i => block.getD i 0 % 256) w 0
  let stn := (List.range (nr - 1)).foldl
    (fun st r => addRoundKey (mixColumns (shiftRows (subBytesL st))) w (r + 1)) st0
  addRoundKey (shiftRows (subBytesL stn)) w nr

/-- Multiplication in GF(2^128) with the GCM bit convention; operands are
the big-endian integer values of 16-byte blocks. -/
def gf128mul (x y : Nat) : Nat :=
  ((List.range 128).foldl
    (fun acc i =>
      let z := acc.1; let v := acc.2
      (if x.testBit (127 - i) then z ^^^ v else z,
       if v % 2 = 1 then (v / 2) ^^^ (0xe1 <<< 120) else v / 2))
    (0, y)).1

/-- The 16-byte block at index `i` of a byte sequence, zero-padded, as a
big-endian integer. -/
def blockAt (c : List Nat) (i : Nat) : Nat :=
  (List.range 16).foldl (fun acc j => acc * 256 + (c.getD (16 * i + j) 0) % 256) 0

/-- Big-endian integer value of a 16-byte block. -/
def blockVal (b : List Nat) : Nat := blockAt b 0

/-- A 16-byte integer back to bytes. -/
def natToBytes16 (n : Nat) : List Nat :=
  (List.range 16).map fun i => (n >>> (8 * (15 - i))) % 256

/-- GHASH of the ciphertext with empty additional data, including the
final lengths block (bit lengths, `len(A) = 0`). -/
def ghash (h : Nat) (c : List Nat) : Nat :=
  let nb := (c.length + 15) / 16
  let x := (List.range nb).foldl (fun x i => gf128mul (x ^^^ blockAt c i) h) 0
  gf128mul (x ^^^ (8 * c.length) % 2 ^ 64) h

/-- The GCM counter block: the 12-byte nonce followed by a big-endian
32-bit counter (`J0` is counter value 1). -/
def counterBlock (nonce : List Nat) (m : Nat) : List Nat :=
  nonce ++ [(m / 2 ^ 24) % 256, (m / 2 ^ 16) % 256, (m / 2 ^ 8) % 256, m % 256]

/-- The CTR keystream of GCM: byte `i` comes from the encryption of the
counter block `i / 16 + 2` (data counters start after `J0`). -/
def keystream (key nonce : List Nat) (n : Nat) : List Nat :=
  (List.range n).map fun i =>
    (aesEncBlock key (counterBlock nonce ((i / 16 + 2) % 2 ^ 32))).getD (i % 16) 0

/-- CTR encryption/decryption (its own inverse). -/
def ctrCrypt (key nonce data : List Nat) : List Nat :=
  List.zipWith Nat.xor data (keystream key nonce data.length)

/-- The GCM authentication tag over ciphertext `c` (no additional data):
`GHASH_H(c) ⊕ E_K(J0)` with `H = E_K(0^16)`. -/
def gcmTag (key nonce c : List Nat) : List Nat :=
  let h := blockVal (aesEncBlock key (List.replicate 16 0))
  List.zipWith Nat.xor (aesEncBlock key (counterBlock nonce 1)) (natToBytes16 (ghash h c))

/-- The function `aesgcm.Seal(nil, nonce, data, nil)`: ciphertext with the tag
appended (the nonce-length check lives in `encrypt` below). -/
def gcmSeal (key nonce data : List Nat) : List Nat :=
  let c := ctrCrypt key nonce data
  c ++ gcmTag key nonce c

/-- Errors of the cipher layer: `aes.KeySizeError` from `aes.NewCipher`,
and GCM's uniform authentication failure (`errOpen`,
`cipher: message authentication failed`). -/
inductive CipherErr
  | keySize (n : Nat)
  | authFailed
deriving DecidableEq

/-- Outcome of a call that may return bytes, return an error, or panic.
GCM `Seal`/`Open` panic (`crypto/cipher: incorrect nonce length given to
GCM`) instead of returning when the nonce length is wrong. -/
inductive CipherOut
  | ok (data : List Nat)
  | err (e : CipherErr)
  | panicked
deriving DecidableEq

/-- The function `aes.NewCipher` accepts exactly the AES key sizes 16, 24, 32. -/
def validKeyLen (n : Nat) : Bool := n = 16 ∨ n = 24 ∨ n = 32

/-- The function `encrypt` (`secrets.go:355`): `aes.NewCipher` (key-size check), then
`cipher.NewGCM` (never fails for AES), then `Seal` (panics unless the
nonce is exactly 12 bytes). -/
def encrypt (data key nonce : List Nat) : CipherOut :=
  if validKeyLen key.length then
    if nonce.length = 12 then .ok (gcmSeal key nonce data)
    else .panicked
  else .err (.keySize key.length)

/-- The function `decrypt` (`secrets.go:370`): `aes.NewCipher`, `cipher.NewGCM`, then
`Open`: panics unless the nonce is 12 bytes, rejects inputs shorter than
the 16-byte tag, recomputes the tag and on mismatch fails uniformly. -/
def decrypt (ct key nonce : List Nat) : CipherOut :=
  if validKeyLen key.length then
    if nonce.length = 12 then
      if ct.length < 16 then .err .authFailed
      else
        let c := ct.take (ct.length - 16)
        let t := ct.drop (ct.length - 16)
        if gcmTag key nonce c = t then .ok (ctrCrypt key nonce c)
        else .err .authFailed
    else .panicked
  else .err (.keySize key.length)

/-! Section: length facts about the cipher. -/

lemma length_aesEncBlock (key b : List Nat) : (aesEncBlock key b).length = 16 := by
  simp [aesEncBlock, addRoundKey]

lemma length_keystream (key nonce : List Nat) (n : Nat) :
    (keystream key nonce n).length = n := by
  simp [keystream]

lemma length_ctrCrypt (key nonce d : List Nat) :
    (ctrCrypt key nonce d).length = d.length := by
  simp [ctrCrypt, length_keystream]

lemma length_natToBytes16 (n : Nat) : (natToBytes16 n).length = 16 := by
  simp [natToBytes16]

lemma length_gcmTag (key nonce c : List Nat) : (gcmTag key nonce c).length = 16 := by
  simp [gcmTag, length_aesEncBlock, length_natToBytes16]

lemma zipWith_xor_cancel (p k : List Nat) (h : p.length = k.length) :
    List.zipWith Nat.xor (List.zipWith Nat.xor p k) k = p := by
  induction p generalizing k with
  | nil => simp
  | cons a p ih =>
    cases k with
    | nil => simp at h
    | cons b k =>
      have hx : Nat.xor (Nat.xor a b) b = a := Nat.xor_cancel_right b a
      simp only [List.zipWith_cons_cons, hx]
      exact congrArg (List.cons a) (ih k (by simpa using h))

/-- Claim C1 (confirmed). For every plaintext byte sequence, every 32-byte
key and every 12-byte nonce, `decrypt (encrypt pt key nonce) key nonce`
succeeds and returns exactly the original plaintext. -/
theorem claimC1_roundtrip (pt key nonce : List Nat)
    (hk : key.length = 32) (hn : nonce.length = 12) :
    ∃ ct, encrypt pt key nonce = .ok ct ∧ decrypt ct key nonce = .ok pt := by
  have hv : validKeyLen key.length = true := by rw [hk]; decide
  refine ⟨gcmSeal key nonce pt, by simp [encrypt, hv, hn], ?_⟩
  have hc : (ctrCrypt key nonce pt).length = pt.length := length_ctrCrypt key nonce pt
  have ht : (gcmTag key nonce (ctrCrypt key nonce pt)).length = 16 :=
    length_gcmTag key nonce _
  have hseal : gcmSeal key nonce pt =
      ctrCrypt key nonce pt ++ gcmTag key nonce (ctrCrypt key nonce pt) := rfl
  have hlen : (gcmSeal key nonce pt).length = pt.length + 16 := by
    rw [hseal]; simp [hc, ht]
  have h16 : ¬ (pt.length + 16 < 16) := by omega
  have htake : (gcmSeal key nonce pt).take ((gcmSeal key nonce pt).length - 16) =
      ctrCrypt key nonce pt := by
    rw [hlen, Nat.add_sub_cancel, hseal]
    exact List.take_left' hc
  have hdrop : (gcmSeal key nonce pt).drop ((gcmSeal key nonce pt).length - 16) =
      gcmTag key nonce (ctrCrypt key nonce pt) := by
    rw [hlen, Nat.add_sub_cancel, hseal]
    exact List.drop_left' hc
  rw [decrypt, if_pos hv, if_pos hn, if_neg (hlen ▸ h16), htake, hdrop, if_pos rfl]
  rw [ctrCrypt, hc, ctrCrypt]
  exact congrArg CipherOut.ok
    (zipWith_xor_cancel pt (keystream key nonce pt.length)
      (length_keystream key nonce pt.length).symm)

/-- Witness for C1 at a concrete input. -/
theorem claimC1_roundtrip_witness :
    (List.replicate 32 7 : List Nat).length = 32 ∧
    (List.replicate 12 9 : List Nat).length = 12 ∧
    ∃ ct, encrypt [1, 2, 3] (List.replicate 32 7) (List.replicate 12 9) = .ok ct ∧
      decrypt ct (List.replicate 32 7) (List.replicate 12 9) = .ok [1, 2, 3] :=
  ⟨by decide, by decide,
    claimC1_roundtrip [1, 2, 3] (List.replicate 32 7) (List.replicate 12 9)
      (by decide) (by decide)⟩

/-- Claim C2 (counterexample). The claim says `encrypt` fails whenever the
key is not exactly 32 bytes; but `aes.NewCipher` also accepts 16- and
24-byte keys (AES-128/192), so a 16-byte key encrypts successfully —
the result is `.ok _`, not an error. -/
theorem claimC2_counterexample :
    encrypt [] (List.replicate 16 0) (List.replicate 12 0) =
      .ok (gcmSeal (List.replicate 16 0) (List.replicate 12 0) []) := by
  rw [encrypt, if_pos (by decide), if_pos (by decide)]

/-- Claim C2 (amended): `encrypt`/`decrypt` fail with `aes.KeySizeError`
exactly when the key length is not one of 16, 24, 32; with an accepted
key length and a 12-byte nonce, `encrypt` succeeds. -/
theorem claimC2_keySize (data key nonce : List Nat) :
    (¬ (key.length = 16 ∨ key.length = 24 ∨ key.length = 32) →
      encrypt data key nonce = .err (.keySize key.length) ∧
      decrypt data key nonce = .err (.keySize key.length)) ∧
    ((key.length = 16 ∨ key.length = 24 ∨ key.length = 32) → nonce.length = 12 →
      ∃ ct, encrypt data key nonce = .ok ct) := by
  constructor
  · intro h
    have hv : validKeyLen key.length = false := by
      simp only [validKeyLen, decide_eq_false_iff_not]
      exact h
    constructor
    · rw [encrypt, if_neg (by simp [hv])]
    · rw [decrypt, if_neg (by simp [hv])]
  · intro h hn
    have hv : validKeyLen key.length = true := by
      simp only [validKeyLen, decide_eq_true_eq]
      exact h
    exact ⟨_, by rw [encrypt, if_pos (by simp [hv]), if_pos hn]⟩

/-- Witness for the amended C2: a 17-byte key is rejected with
`KeySizeError`, a 16-byte key is accepted. -/
theorem claimC2_keySize_witness :
    encrypt [] (List.replicate 17 0) (List.replicate 12 0) =
      .err (.keySize (List.replicate 17 0).length) ∧
    ∃ ct, encrypt [] (List.replicate 16 0) (List.replicate 12 0) = .ok ct :=
  ⟨((claimC2_keySize [] (List.replicate 17 0) (List.replicate 12 0)).1 (by decide)).1,
    (claimC2_keySize [] (List.replicate 16 0) (List.replicate 12 0)).2
      (by decide) (by decide)⟩

/-- Claim C3 (counterexample). The claim says a wrong-length nonce makes
`encrypt`/`decrypt` return an `InvalidNonceLength` error without
crashing; in fact Go's GCM `Seal`/`Open` panic
(`crypto/cipher: incorrect nonce length given to GCM`), so the call
never returns an error value at all. -/
theorem claimC3_counterexample :
    encrypt [1] (List.replicate 32 0) [] = .panicked ∧
    decrypt [1] (List.replicate 32 0) [] = .panicked := by
  constructor
  · rw [encrypt, if_pos (by decide), if_neg (by decide)]
  · rw [decrypt, if_pos (by decide), if_neg (by decide)]

/-- Claim C3 (amended): for a 32-byte key and a nonce whose length is not
12, `encrypt` and `decrypt` panic (the process crashes unless a caller
recovers) instead of returning an error. -/
theorem claimC3_noncePanic (data key nonce : List Nat)
    (hk : key.length = 32) (hn : nonce.length ≠ 12) :
    encrypt data key nonce = .panicked ∧ decrypt data key nonce = .panicked := by
  have hv : validKeyLen key.length = true := by rw [hk]; decide
  constructor
  · rw [encrypt, if_pos hv, if_neg hn]
  · rw [decrypt, if_pos hv, if_neg hn]

/-- Witness for the amended C3 at an 11-byte nonce. -/
theorem claimC3_noncePanic_witness :
    encrypt [1] (List.replicate 32 0) (List.replicate 11 0) = .panicked ∧
    decrypt [1] (List.replicate 32 0) (List.replicate 11 0) = .panicked :=
  claimC3_noncePanic [1] (List.replicate 32 0) (List.replicate 11 0)
    (by decide) (by decide)

/-! Section: order facts about the canonical store representation. -/

lemma strLt_irrefl (s : Str) : strLt s s = false := by
  induction s with
  | nil => rfl
  | cons a as ih => simp [strLt, charLtB, ih]

lemma strLt_asymm : ∀ (a b : Str), strLt a b = true → strLt b a = false
  | [], [] => by simp [strLt]
  | [], _ :: _ => by simp [strLt]
  | _ :: _, [] => by simp [strLt]
  | x :: xs, y :: ys => by
    simp only [strLt, charLtB]
    intro h
    by_cases h1 : x.toNat < y.toNat
    · have hyx : ¬ y.toNat < x.toNat := by omega
      simp [hyx, h1]
    · by_cases h2 : y.toNat < x.toNat
      · simp [h1, h2] at h
      · rw [if_neg (by simp [h1]), if_neg (by simp [h2])] at h
        rw [if_neg (by simp [h2]), if_neg (by simp [h1])]
        exact strLt_asymm xs ys h

lemma strLt_trans : ∀ (a b c : Str), strLt a b = true → strLt b c = true → strLt a c = true
  | [], [], _ => fun h1 _ => absurd h1 (by simp [strLt])
  | _ :: _, [], _ => fun h1 _ => absurd h1 (by simp [strLt])
  | _, _ :: _, [] => fun _ h2 => absurd h2 (by simp [strLt])
  | [], _ :: _, _ :: _ => fun _ _ => by simp [strLt]
  | x :: xs, y :: ys, z :: zs => by
    simp only [strLt, charLtB]
    intro h1 h2
    by_cases a1 : x.toNat < y.toNat
    · by_cases b1 : y.toNat < z.toNat
      · simp [show x.toNat < z.toNat by omega]
      · rw [if_neg (by simp [b1])] at h2
        by_cases b2 : z.toNat < y.toNat
        · rw [if_pos (by simp [b2])] at h2
          exact absurd h2 (by simp)
        · simp [show x.toNat < z.toNat by omega]
    · rw [if_neg (by simp [a1])] at h1
      by_cases a2 : y.toNat < x.toNat
      · rw [if_pos (by simp [a2])] at h1
        exact absurd h1 (by simp)
      · rw [if_neg (by simp [a2])] at h1
        by_cases b1 : y.toNat < z.toNat
        · simp [show x.toNat < z.toNat by omega]
        · rw [if_neg (by simp [b1])] at h2
          by_cases b2 : z.toNat < y.toNat
          · rw [if_pos (by simp [b2])] at h2
            exact absurd h2 (by simp)
          · rw [if_neg (by simp [b2])] at h2
            have hxz : ¬ x.toNat < z.toNat := by omega
            have hzx : ¬ z.toNat < x.toNat := by omega
            rw [if_neg (by simp [hxz]), if_neg (by simp [hzx])]
            exact strLt_trans xs ys zs h1 h2

lemma insert_append_of_forall_lt (s : Store) (k v : Str)
    (h : ∀ kv ∈ s, strLt kv.1 k = true) :
    insertSecret s k v = s ++ [(k, v)] := by
  induction s with
  | nil => rfl
  | cons kv0 rest ih =>
    obtain ⟨k0, v0⟩ := kv0
    have h0 : strLt k0 k = true := h (k0, v0) (by simp)
    have h1 : ¬ (strLt k k0 = true) := by
      rw [strLt_asymm k0 k h0]; simp
    have h2 : ¬ (k = k0) := by
      intro he
      rw [he, strLt_irrefl] at h0
      exact Bool.false_ne_true h0
    rw [insertSecret, if_neg h1, if_neg h2]
    exact congrArg _ (ih fun kv hm => h kv (List.mem_cons_of_mem _ hm))

lemma foldl_insert_sorted : ∀ (m pre : Store), SortedStore (pre ++ m) →
    m.foldl (fun s kv => insertSecret s kv.1 kv.2) pre = pre ++ m := by
  intro m
  induction m with
  | nil => intro pre _; simp
  | cons kv m ih =>
    intro pre hs
    obtain ⟨k, v⟩ := kv
    have hlt : ∀ kv' ∈ pre, strLt kv'.1 k = true := by
      have hp := (List.pairwise_append.mp hs).2.2
      intro kv' hm
      exact hp kv' hm (k, v) (by simp)
    have hs' : SortedStore ((pre ++ [(k, v)]) ++ m) := by
      rw [List.append_assoc]
      simpa using hs
    rw [List.foldl_cons]
    show List.foldl _ (insertSecret pre k v) m = _
    rw [insert_append_of_forall_lt pre k v hlt, ih (pre ++ [(k, v)]) hs']
    simp

lemma foldl_insert_sorted_nil (m : Store) (hs : SortedStore m) :
    m.foldl (fun s kv => insertSecret s kv.1 kv.2) [] = m :=
  foldl_insert_sorted m [] (by simpa using hs)

/-! Section: Go `encoding/json` for flat string maps (used by `secrets.go:57-84,195-217`).

`json.MarshalIndent(m, "", "  ")` on a `map[string]string` emits the
entries sorted by key, HTML-escaping on; `json.Unmarshal` into a
`map[string]string` accepts an object whose values are all strings (or
`null`), rejects anything else, and rejects trailing non-space data. -/

/-- JSON whitespace. -/
def isJsonWs (c : Char) : Bool := c = ' ' ∨ c = '\t' ∨ c = '\n' ∨ c = '\r'

/-- Skip leading JSON whitespace. -/
def skipWs : List Char → List Char
  | [] => []
  | c :: rest => if isJsonWs c then skipWs rest else c :: rest

/-- Lower-case hex digit of a value below 16. -/
def hexDigitChar (n : Nat) : Char := (("0123456789abcdef").toList).getD n '0'

/-- Value of a hex digit (either case), as Go's `getu4`. -/
def hexVal (c : Char) : Option Nat :=
  if '0' ≤ c ∧ c ≤ '9' then some (c.toNat - 48)
  else if 'a' ≤ c ∧ c ≤ 'f' then some (c.toNat - 87)
  else if 'A' ≤ c ∧ c ≤ 'F' then some (c.toNat - 55)
  else none

/-- How Go's encoder writes one character of a JSON string
(HTML escaping on, as `json.Marshal` uses by default). -/
def jsonEscapeChar (c : Char) : List Char :=
  if c = '"' then ['\\', '"']
  else if c = '\\' then ['\\', '\\']
  else if c = '\n' then ['\\', 'n']
  else if c = '\r' then ['\\', 'r']
  else if c = '\t' then ['\\', 't']
  else if c = '<' then ['\\', 'u', '0', '0', '3', 'c']
  else if c = '>' then ['\\', 'u', '0', '0', '3', 'e']
  else if c = '&' then ['\\', 'u', '0', '0', '2', '6']
  else if c.toNat < 0x20 then
    ['\\', 'u', '0', '0', hexDigitChar (c.toNat / 16), hexDigitChar (c.toNat % 16)]
  else if c = Char.ofNat 0x2028 then ['\\', 'u', '2', '0', '2', '8']
  else if c = Char.ofNat 0x2029 then ['\\', 'u', '2', '0', '2', '9']
  else [c]

/-- The escaped body of a JSON string literal. -/
def escBody (s : Str) : List Char := s.foldr (fun c acc => jsonEscapeChar c ++ acc) []

/-- A JSON string literal. -/
def jsonQuote (s : Str) : List Char := '"' :: escBody s ++ ['"']

/-- One indented `"key": "value"` line (indent two spaces). -/
def jsonEntry (k v : Str) : List Char :=
  ' ' :: ' ' :: (jsonQuote k ++ ':' :: ' ' :: jsonQuote v)

/-- The entry lines, comma-and-newline separated. -/
def jsonEntries : Store → List Char
  | [] => []
  | [(k, v)] => jsonEntry k v
  | (k, v) :: rest => jsonEntry k v ++ ',' :: '\n' :: jsonEntries rest

/-- The function `json.MarshalIndent(m, "", "  ")` of a string map. -/
def marshalMapIndent (m : Store) : List Char :=
  match m with
  | [] => ['\x7b', '\x7d']
  | _ => '\x7b' :: '\n' :: (jsonEntries m ++ ['\n', '\x7d'])

/-- Decode one escape sequence (the part after the backslash),
following Go's `unquote`: `\"`, `\\`, `\/`, `\b`, `\f`, `\n`, `\r`,
`\t`, `\uXXXX` with UTF-16 surrogate pairs (a lone or invalid surrogate
becomes U+FFFD). Returns the decoded character and the remaining input. -/
def decodeEscape : List Char → Option (Char × List Char)
  | [] => none
  | e :: rest2 =>
    if e = '"' ∨ e = '\\' ∨ e = '/' then some (e, rest2)
    else if e = 'b' then some (Char.ofNat 8, rest2)
    else if e = 'f' then some (Char.ofNat 12, rest2)
    else if e = 'n' then some ('\n', rest2)
    else if e = 'r' then some ('\r', rest2)
    else if e = 't' then some ('\t', rest2)
    else if e = 'u' then
      match rest2 with
      | h1 :: h2 :: h3 :: h4 :: rest3 =>
        match hexVal h1, hexVal h2, hexVal h3, hexVal h4 with
        | some a, some b, some c2, some d =>
          let n := 4096 * a + 256 * b + 16 * c2 + d
          if 0xD800 ≤ n ∧ n ≤ 0xDFFF then
            match rest3 with
            | '\\' :: 'u' :: g1 :: g2 :: g3 :: g4 :: rest4 =>
              match hexVal g1, hexVal g2, hexVal g3, hexVal g4 with
              | some a2, some b2, some c3, some d2 =>
                let n2 := 4096 * a2 + 256 * b2 + 16 * c3 + d2
                if 0xD800 ≤ n ∧ n ≤ 0xDBFF ∧ 0xDC00 ≤ n2 ∧ n2 ≤ 0xDFFF then
                  some (Char.ofNat (0x10000 + (n - 0xD800) * 1024 + (n2 - 0xDC00)), rest4)
                else some (Char.ofNat 0xFFFD, rest3)
              | _, _, _, _ => some (Char.ofNat 0xFFFD, rest3)
            | _ => some (Char.ofNat 0xFFFD, rest3)
          else some (Char.ofNat n, rest3)
        | _, _, _, _ => none
      | _ => none
    else none

lemma decodeEscape_length (l : List Char) (ch : Char) (r : List Char)
    (h : decodeEscape l = some (ch, r)) : r.length < l.length := by
  match l with
  | [] => simp [decodeEscape] at h
  | e :: rest2 =>
    rw [decodeEscape.eq_def] at h
    dsimp only at h
    repeat' split at h
    all_goals
      first
        | (injection h with h; injection h with h1 h2; subst h2; simp <;> omega)
        | exact absurd h (by simp)

/-- Decode the body of a JSON string literal up to the closing quote:
raw control characters are rejected, backslash escapes decoded by
`decodeEscape`. -/
def parseStringBody : List Char → Option (Str × List Char)
  | [] => none
  | c :: rest =>
    if c = '"' then some ([], rest)
    else if c = '\\' then
      match hd : decodeEscape rest with
      | none => none
      | some (ch, rest2) =>
        match parseStringBody rest2 with
        | none => none
        | some (s, r) => some (ch :: s, r)
    else if c.toNat < 0x20 then none
    else
      match parseStringBody rest with
      | none => none
      | some (s, r) => some (c :: s, r)
termination_by l => l.length
decreasing_by
  · exact Nat.lt_trans (decodeEscape_length rest ch rest2 hd) (by simp)
  · simp

/-- Parse a JSON string literal including its opening quote. -/
def parseJsonString (l : List Char) : Option (Str × List Char) :=
  match l with
  | '"' :: rest => parseStringBody rest
  | _ => none

/-- The member loop of the object decoder: parse `"k": "v"` pairs
separated by commas until the closing brace, assigning each pair into
the accumulated map (later duplicates overwrite). `fuel` only bounds the
number of members. -/
def parseMembers : Nat → List Char → Store → Option (Store × List Char)
  | 0, _, _ => none
  | fuel + 1, l, acc =>
    match parseJsonString (skipWs l) with
    | none => none
    | some (k, r1) =>
      match skipWs r1 with
      | ':' :: r2 =>
        match parseJsonString (skipWs r2) with
        | none => none
        | some (v, r3) =>
          match skipWs r3 with
          | ',' :: r4 => parseMembers fuel r4 (insertSecret acc k v)
          | '\x7d' :: r4 => some (insertSecret acc k v, r4)
          | _ => none
      | _ => none

/-- The function `json.Unmarshal(data, &m)` for `m : map[string]string`: a JSON
object of string values (or `null`, which leaves the map empty), with
nothing but whitespace after it. -/
def unmarshalMap (d : List Char) : Option Store :=
  match skipWs d with
  | '\x7b' :: rest =>
    match skipWs rest with
    | '\x7d' :: r2 => if skipWs r2 = [] then some [] else none
    | _ =>
      match parseMembers (rest.length + 1) rest [] with
      | some (st, r2) => if skipWs r2 = [] then some st else none
      | none => none
  | 'n' :: 'u' :: 'l' :: 'l' :: rest => if skipWs rest = [] then some [] else none
  | _ => none

/-- The function `Manager.SaveToFile` (`secrets.go:195`): the bytes written to the
file — `json.MarshalIndent(m.secrets, "", "  ")`. Directory creation,
the 0600 permissions and write failures are I/O effects outside the
store's state and are not modelled. -/
def Manager.SaveToFile (m : Store) : List Char := marshalMapIndent m

/-- The function `Manager.LoadFromFile` (`secrets.go:57`): stat, read, `Unmarshal`,
then merge every parsed entry into the store. -/
def Manager.LoadFromFile (m : Store) (f : Manager.FileInput) : Option Manager.LoadErr × Store :=
  match f with
  | .missing => (some .notFound, m)
  | .unreadable => (some .ioError, m)
  | .content d =>
    match unmarshalMap d with
    | none => (some .parseError, m)
    | some entries => (none, entries.foldl (fun s kv => insertSecret s kv.1 kv.2) m)

/-! Section: the decoder inverts the encoder (string literals). -/

lemma hexVal_hexDigitChar (n : Nat) (h : n < 16) : hexVal (hexDigitChar n) = some n := by
  interval_cases n <;> decide

lemma psb_close (l : List Char) : parseStringBody ('"' :: l) = some ([], l) := by
  rw [parseStringBody, if_pos rfl]

lemma psb_lit (c : Char) (l : List Char) (s : Str) (r : List Char)
    (h1 : ¬ c = '"') (h2 : ¬ c = '\\') (h3 : ¬ c.toNat < 0x20)
    (h : parseStringBody l = some (s, r)) :
    parseStringBody (c :: l) = some (c :: s, r) := by
  rw [parseStringBody, if_neg h1, if_neg h2, if_neg h3, h]

lemma psb_backslash (l : List Char) (ch : Char) (l2 : List Char) (s : Str) (r : List Char)
    (hde : decodeEscape l = some (ch, l2)) (hp : parseStringBody l2 = some (s, r)) :
    parseStringBody ('\\' :: l) = some (ch :: s, r) := by
  rw [parseStringBody, if_neg (by decide), if_pos rfl]
  split
  · rename_i heq
    rw [hde] at heq
    exact Option.noConfusion heq
  · rename_i ch2 l3 heq
    rw [hde] at heq
    injection heq with heq
    injection heq with ha hb
    subst ha
    subst hb
    rw [hp]

lemma de_simple (e : Char) (he : e = '"' ∨ e = '\\' ∨ e = '/') (l : List Char) :
    decodeEscape (e :: l) = some (e, l) := by
  simp [decodeEscape, he]

lemma de_n (l : List Char) : decodeEscape ('n' :: l) = some ('\n', l) := by
  simp [decodeEscape]

lemma de_r (l : List Char) : decodeEscape ('r' :: l) = some ('\r', l) := by
  simp [decodeEscape]

lemma de_t (l : List Char) : decodeEscape ('t' :: l) = some ('\t', l) := by
  simp [decodeEscape]

lemma de_u (h1 h2 h3 h4 : Char) (a b c d n : Nat) (l : List Char)
    (e1 : hexVal h1 = some a) (e2 : hexVal h2 = some b)
    (e3 : hexVal h3 = some c) (e4 : hexVal h4 = some d)
    (hn : n = 4096 * a + 256 * b + 16 * c + d)
    (hns : ¬ (0xD800 ≤ n ∧ n ≤ 0xDFFF)) :
    decodeEscape ('u' :: h1 :: h2 :: h3 :: h4 :: l) = some (Char.ofNat n, l) := by
  subst hn
  simp [decodeEscape, e1, e2, e3, e4, hns]

lemma parseStringBody_escBody : ∀ (s : Str) (rest : List Char),
    parseStringBody (escBody s ++ '"' :: rest) = some (s, rest) := by
  intro s
  induction s with
  | nil => intro rest; exact psb_close rest
  | cons c s ih =>
    intro rest
    have hb : escBody (c :: s) = jsonEscapeChar c ++ escBody s := by simp [escBody]
    rw [hb, List.append_assoc, jsonEscapeChar]
    by_cases h1 : c = '"'
    · rw [if_pos h1]
      subst h1
      exact psb_backslash _ _ _ _ _ (de_simple '"' (Or.inl rfl) _) (ih rest)
    · rw [if_neg h1]
      by_cases h2 : c = '\\'
      · rw [if_pos h2]
        subst h2
        exact psb_backslash _ _ _ _ _ (de_simple '\\' (Or.inr (Or.inl rfl)) _) (ih rest)
      · rw [if_neg h2]
        by_cases h3 : c = '\n'
        · rw [if_pos h3]
          subst h3
          exact psb_backslash _ _ _ _ _ (de_n _) (ih rest)
        · rw [if_neg h3]
          by_cases h4 : c = '\r'
          · rw [if_pos h4]
            subst h4
            exact psb_backslash _ _ _ _ _ (de_r _) (ih rest)
          · rw [if_neg h4]
            by_cases h5 : c = '\t'
            · rw [if_pos h5]
              subst h5
              exact psb_backslash _ _ _ _ _ (de_t _) (ih rest)
            · rw [if_neg h5]
              by_cases h6 : c = '<'
              · rw [if_pos h6]
                subst h6
                rw [show ('<' : Char) = Char.ofNat 60 from by decide]
                exact psb_backslash _ _ _ _ _
                  (de_u '0' '0' '3' 'c' 0 0 3 12 60 _ (by decide) (by decide) (by decide)
                    (by decide) (by norm_num) (by decide)) (ih rest)
              · rw [if_neg h6]
                by_cases h7 : c = '>'
                · rw [if_pos h7]
                  subst h7
                  rw [show ('>' : Char) = Char.ofNat 62 from by decide]
                  exact psb_backslash _ _ _ _ _
                    (de_u '0' '0' '3' 'e' 0 0 3 14 62 _ (by decide) (by decide) (by decide)
                      (by decide) (by norm_num) (by decide)) (ih rest)
                · rw [if_neg h7]
                  by_cases h8 : c = '&'
                  · rw [if_pos h8]
                    subst h8
                    rw [show ('&' : Char) = Char.ofNat 38 from by decide]
                    exact psb_backslash _ _ _ _ _
                      (de_u '0' '0' '2' '6' 0 0 2 6 38 _ (by decide) (by decide) (by decide)
                        (by decide) (by norm_num) (by decide)) (ih rest)
                  · rw [if_neg h8]
                    by_cases h9 : c.toNat < 0x20
                    · rw [if_pos h9]
                      conv_rhs => rw [show c = Char.ofNat c.toNat from (Char.ofNat_toNat c).symm]
                      exact psb_backslash _ _ _ _ _
                        (de_u '0' '0' (hexDigitChar (c.toNat / 16)) (hexDigitChar (c.toNat % 16))
                          0 0 (c.toNat / 16) (c.toNat % 16) c.toNat _
                          (by decide) (by decide)
                          (hexVal_hexDigitChar _ (by omega))
                          (hexVal_hexDigitChar _ (Nat.mod_lt _ (by omega)))
                          (by omega) (by omega)) (ih rest)
                    · rw [if_neg h9]
                      by_cases h10 : c = Char.ofNat 0x2028
                      · rw [if_pos h10]
                        rw [h10]
                        exact psb_backslash _ _ _ _ _
                          (de_u '2' '0' '2' '8' 2 0 2 8 0x2028 _ (by decide) (by decide)
                            (by decide) (by decide) (by norm_num) (by decide)) (ih rest)
                      · rw [if_neg h10]
                        by_cases h11 : c = Char.ofNat 0x2029
                        · rw [if_pos h11]
                          rw [h11]
                          exact psb_backslash _ _ _ _ _
                            (de_u '2' '0' '2' '9' 2 0 2 9 0x2029 _ (by decide) (by decide)
                              (by decide) (by decide) (by norm_num) (by decide)) (ih rest)
                        · rw [if_neg h11]
                          exact psb_lit c _ s rest h1 h2 h9 (ih rest)

lemma parseJsonString_quote (s : Str) (rest : List Char) :
    parseJsonString (jsonQuote s ++ rest) = some (s, rest) := by
  have h : jsonQuote s ++ rest = '"' :: (escBody s ++ '"' :: rest) := by
    simp [jsonQuote]
  rw [h]
  show parseStringBody (escBody s ++ '"' :: rest) = some (s, rest)
  exact parseStringBody_escBody s rest

/-! Section: the decoder inverts the encoder (objects). -/

lemma skipWs_ws (c : Char) (l : List Char) (h : isJsonWs c = true) :
    skipWs (c :: l) = skipWs l := by
  rw [skipWs, if_pos h]

lemma skipWs_not (c : Char) (l : List Char) (h : isJsonWs c = false) :
    skipWs (c :: l) = c :: l := by
  rw [skipWs, if_neg (by simp [h])]

lemma jsonEntries_cons (k v : Str) (m : Store) (hm : m ≠ []) :
    jsonEntries ((k, v) :: m) = jsonEntry k v ++ ',' :: '\n' :: jsonEntries m := by
  cases m with
  | nil => exact absurd rfl hm
  | cons kv m2 => rfl

lemma parseMembers_ws (f : Nat) (c : Char) (l : List Char) (acc : Store)
    (h : isJsonWs c = true) :
    parseMembers (f + 1) (c :: l) acc = parseMembers (f + 1) l acc := by
  rw [parseMembers, parseMembers, skipWs_ws _ _ h]

lemma parseMembers_encode : ∀ (m : Store) (acc : Store) (fuel : Nat) (tail : List Char),
    m ≠ [] → m.length ≤ fuel →
    parseMembers fuel (jsonEntries m ++ '\n' :: '\x7d' :: tail) acc =
      some (m.foldl (fun s kv => insertSecret s kv.1 kv.2) acc, tail) := by
  intro m
  induction m with
  | nil => intro acc fuel tail hne _; exact absurd rfl hne
  | cons kv m2 ih =>
    intro acc fuel tail _ hf
    obtain ⟨k, v⟩ := kv
    obtain ⟨f, rfl⟩ : ∃ f, fuel = f + 1 := ⟨fuel - 1, by simp at hf; omega⟩
    by_cases hm2 : m2 = []
    · subst hm2
      simp only [jsonEntries, jsonEntry, jsonQuote, List.cons_append, List.append_assoc,
        List.nil_append, parseMembers, skipWs, isJsonWs, parseJsonString,
        parseStringBody_escBody, List.foldl]
      simp [skipWs, isJsonWs, parseJsonString, parseStringBody_escBody]
    · rw [jsonEntries_cons k v m2 hm2]
      have hf2 : m2.length ≤ f := by simp at hf; omega
      have hm2len : 1 ≤ m2.length := by
        cases m2 with
        | nil => exact absurd rfl hm2
        | cons _ _ => simp
      obtain ⟨g, rfl⟩ : ∃ g, f = g + 1 := ⟨f - 1, by omega⟩
      have step : parseMembers (g + 1 + 1)
          ((jsonEntry k v ++ ',' :: '\n' :: jsonEntries m2) ++ '\n' :: '\x7d' :: tail) acc =
          parseMembers (g + 1) ('\n' :: (jsonEntries m2 ++ '\n' :: '\x7d' :: tail))
            (insertSecret acc k v) := by
        simp only [jsonEntry, jsonQuote, List.cons_append, List.append_assoc,
          List.nil_append, parseMembers, skipWs, isJsonWs, parseJsonString,
          parseStringBody_escBody]
        simp [skipWs, isJsonWs, parseJsonString, parseStringBody_escBody]
      rw [step, parseMembers_ws g _ _ _ (by decide), ih (insertSecret acc k v) (g + 1) tail
        hm2 (by omega)]
      simp

lemma length_jsonEntries (m : Store) : m.length ≤ (jsonEntries m).length := by
  induction m with
  | nil => exact Nat.zero_le _
  | cons kv m2 ih =>
    obtain ⟨k, v⟩ := kv
    by_cases hm2 : m2 = []
    · subst hm2; simp [jsonEntries, jsonEntry]
    · rw [jsonEntries_cons k v m2 hm2]
      simp only [List.length_append, List.length_cons, jsonEntry, jsonQuote]
      omega

lemma skipWs_entries_ne (k v : Str) (m2 : Store) (Z : List Char) (r2 : List Char) :
    skipWs ('\n' :: (jsonEntries ((k, v) :: m2) ++ Z)) ≠ '\x7d' :: r2 := by
  cases m2 with
  | nil =>
    simp [jsonEntries, jsonEntry, jsonQuote, skipWs, isJsonWs, List.cons_append,
      List.append_assoc]
  | cons kv2 m3 =>
    rw [jsonEntries_cons _ _ _ (by simp)]
    simp [jsonEntry, jsonQuote, skipWs, isJsonWs, List.cons_append, List.append_assoc]

lemma unmarshalMap_marshal (m : Store) (hs : SortedStore m) :
    unmarshalMap (marshalMapIndent m) = some m := by
  cases m with
  | nil => rfl
  | cons kv m2 =>
    obtain ⟨k, v⟩ := kv
    have hrest : marshalMapIndent ((k, v) :: m2) =
        '\x7b' :: ('\n' :: (jsonEntries ((k, v) :: m2) ++ ['\n', '\x7d'])) := rfl
    have hlen : ('\n' :: (jsonEntries ((k, v) :: m2) ++ ['\n', '\x7d'])).length + 1 =
        ((jsonEntries ((k, v) :: m2) ++ ['\n', '\x7d']).length + 1) + 1 := by simp
    have hpm : parseMembers
        (('\n' :: (jsonEntries ((k, v) :: m2) ++ ['\n', '\x7d'])).length + 1)
        ('\n' :: (jsonEntries ((k, v) :: m2) ++ ['\n', '\x7d'])) [] =
        some ((k, v) :: m2, []) := by
      rw [hlen, parseMembers_ws _ _ _ _ (by decide)]
      rw [show jsonEntries ((k, v) :: m2) ++ ['\n', '\x7d'] =
        jsonEntries ((k, v) :: m2) ++ '\n' :: '\x7d' :: ([] : List Char) from rfl]
      rw [parseMembers_encode ((k, v) :: m2) [] _ [] (by simp)
        (by
          have h := length_jsonEntries ((k, v) :: m2)
          rw [List.length_append]
          simp only [List.length_cons, List.length_nil] at *
          omega)]
      rw [foldl_insert_sorted_nil _ hs]
    rw [hrest]
    rw [show unmarshalMap ('\x7b' :: ('\n' :: (jsonEntries ((k, v) :: m2) ++ ['\n', '\x7d']))) =
      (match skipWs ('\n' :: (jsonEntries ((k, v) :: m2) ++ ['\n', '\x7d'])) with
        | '\x7d' :: r2 => if skipWs r2 = [] then some [] else none
        | _ =>
          match parseMembers
              (('\n' :: (jsonEntries ((k, v) :: m2) ++ ['\n', '\x7d'])).length + 1)
              ('\n' :: (jsonEntries ((k, v) :: m2) ++ ['\n', '\x7d'])) [] with
          | some (st, r2) => if skipWs r2 = [] then some st else none
          | none => none) from rfl]
    split
    · rename_i r2 heq
      exact absurd heq (skipWs_entries_ne k v m2 _ r2)
    · rw [hpm]
      rfl

/-- Claim C7 (confirmed). For every mapping (in canonical sorted form,
the model of a Go map), saving with `SaveToFile` and loading the written
content into a fresh empty store via `LoadFromFile` succeeds and
reproduces the mapping exactly — including the empty mapping. -/
theorem claimC7_saveLoadRoundTrip (m : Store) (hs : SortedStore m) :
    Manager.LoadFromFile [] (.content (Manager.SaveToFile m)) = (none, m) := by
  show (match unmarshalMap (marshalMapIndent m) with
    | none => (some Manager.LoadErr.parseError, ([] : Store))
    | some entries => (none, entries.foldl (fun s kv => insertSecret s kv.1 kv.2) [])) =
      (none, m)
  rw [unmarshalMap_marshal m hs]
  show (none, m.foldl (fun s kv => insertSecret s kv.1 kv.2) ([] : Store)) =
    ((none : Option Manager.LoadErr), m)
  rw [foldl_insert_sorted_nil m hs]

/-- Witness for C7 on a two-entry mapping (with escapes in the values). -/
theorem claimC7_saveLoadRoundTrip_witness :
    Manager.LoadFromFile [] (.content (Manager.SaveToFile
      [(['a'], ['x', '<', '\n']), (['b'], [])])) =
      (none, [(['a'], ['x', '<', '\n']), (['b'], [])]) :=
  claimC7_saveLoadRoundTrip [(['a'], ['x', '<', '\n']), (['b'], [])] (by decide)

/-! Section: Go `encoding/base64` (StdEncoding) and UTF-8 decoding. -/

/-- The standard base64 alphabet. -/
def b64Alphabet : List Char :=
  ("ABCDEFGHIJKLMNOPQRSTUVWXYZabcdefghijklmnopqrstuvwxyz0123456789+/").toList

/-- Value of one base64 digit. -/
def b64Val (c : Char) : Option Nat := b64Alphabet.findIdx? (· = c)

/-- Decode base64 four characters at a time (`=` padding only in the
final quantum), as Go's `StdEncoding.DecodeString` after newline
filtering; Go's non-strict decoder does not check the trailing bits. -/
def base64DecodeQuantums : List Char → Option (List Nat)
  | [] => some []
  | c1 :: c2 :: c3 :: c4 :: rest =>
    match b64Val c1, b64Val c2 with
    | some a, some b =>
      if c3 = '=' then
        if c4 = '=' ∧ rest = [] then some [(a * 4 + b / 16) % 256]
        else none
      else
        match b64Val c3 with
        | some c =>
          if c4 = '=' then
            if rest = [] then some [(a * 4 + b / 16) % 256, ((b % 16) * 16 + c / 4) % 256]
            else none
          else
            match b64Val c4 with
            | some d =>
              match base64DecodeQuantums rest with
              | none => none
              | some bs =>
                some ((a * 4 + b / 16) % 256 :: ((b % 16) * 16 + c / 4) % 256 ::
                  ((c % 4) * 64 + d) % 256 :: bs)
            | none => none
        | none => none
    | _, _ => none
  | _ => none

/-- The function `base64.StdEncoding.DecodeString`: the decoder skips `\r` and `\n`. -/
def base64Decode (s : Str) : Option (List Nat) :=
  base64DecodeQuantums (s.filter (fun c => ¬ (c = '\n' ∨ c = '\r')))

/-- Strict (RFC 3629) UTF-8 decoding of a byte sequence, rejecting
overlong forms, surrogates and values above U+10FFFF; bridges Go's
byte-level JSON decoding of the decrypted plaintext into the `List Char`
string model. -/
def utf8Decode : List Nat → Option (List Char)
  | [] => some []
  | b :: rest =>
    if b < 0x80 then
      match utf8Decode rest with
      | none => none
      | some cs => some (Char.ofNat b :: cs)
    else if 0xC2 ≤ b ∧ b ≤ 0xDF then
      match rest with
      | b2 :: rest2 =>
        if 0x80 ≤ b2 ∧ b2 ≤ 0xBF then
          match utf8Decode rest2 with
          | none => none
          | some cs => some (Char.ofNat ((b - 0xC0) * 64 + (b2 - 0x80)) :: cs)
        else none
      | [] => none
    else if 0xE0 ≤ b ∧ b ≤ 0xEF then
      match rest with
      | b2 :: b3 :: rest2 =>
        if (if b = 0xE0 then 0xA0 ≤ b2 ∧ b2 ≤ 0xBF
            else if b = 0xED then 0x80 ≤ b2 ∧ b2 ≤ 0x9F
            else 0x80 ≤ b2 ∧ b2 ≤ 0xBF) ∧ 0x80 ≤ b3 ∧ b3 ≤ 0xBF then
          match utf8Decode rest2 with
          | none => none
          | some cs =>
            some (Char.ofNat ((b - 0xE0) * 4096 + (b2 - 0x80) * 64 + (b3 - 0x80)) :: cs)
        else none
      | _ => none
    else if 0xF0 ≤ b ∧ b ≤ 0xF4 then
      match rest with
      | b2 :: b3 :: b4 :: rest2 =>
        if (if b = 0xF0 then 0x90 ≤ b2 ∧ b2 ≤ 0xBF
            else if b = 0xF4 then 0x80 ≤ b2 ∧ b2 ≤ 0x8F
            else 0x80 ≤ b2 ∧ b2 ≤ 0xBF) ∧ 0x80 ≤ b3 ∧ b3 ≤ 0xBF ∧ 0x80 ≤ b4 ∧ b4 ≤ 0xBF then
          match utf8Decode rest2 with
          | none => none
          | some cs =>
            some (Char.ofNat ((b - 0xF0) * 262144 + (b2 - 0x80) * 4096 +
              (b3 - 0x80) * 64 + (b4 - 0x80)) :: cs)
        else none
      | _ => none
    else none
termination_by l => l.length
decreasing_by all_goals (simp_all <;> omega)

/-- The function `json.Unmarshal(data, &encryptedSecrets)` for the two-string-field
`EncryptedSecrets` struct (`secrets.go:234`): an object whose fields are
strings; the `nonce` and `secrets` fields are read (the repository
itself writes exactly these lower-case names), a missing field is the
zero value `""`. -/
def unmarshalEnvelope (d : List Char) : Option (Str × Str) :=
  match unmarshalMap d with
  | none => none
  | some obj =>
    some ((lookupSecret obj ['n', 'o', 'n', 'c', 'e']).getD [],
      (lookupSecret obj ['s', 'e', 'c', 'r', 'e', 't', 's']).getD [])

/-- Outcome of a load operation that can also panic (GCM `Open` panics
on a wrong-length nonce decoded from the file). -/
inductive Manager.LoadResult
  | ret (err : Option Manager.LoadErr) (store : Store)
  | panicked
deriving DecidableEq

/-- The function `Manager.LoadEncryptedFromFile` (`secrets.go:241`): stat, read,
parse the envelope, base64-decode nonce and payload, `decrypt`, parse
the plaintext JSON, and only then merge into the store. -/
def Manager.LoadEncryptedFromFile (m : Store) (f : Manager.FileInput) (key : List Nat) :
    Manager.LoadResult :=
  match f with
  | .missing => .ret (some .notFound) m
  | .unreadable => .ret (some .ioError) m
  | .content d =>
    match unmarshalEnvelope d with
    | none => .ret (some .parseError) m
    | some (nonceB64, secretsB64) =>
      match base64Decode nonceB64 with
      | none => .ret (some .parseError) m
      | some nonce =>
        match base64Decode secretsB64 with
        | none => .ret (some .parseError) m
        | some ct =>
          match decrypt ct key nonce with
          | .panicked => .panicked
          | .err _ => .ret (some .cryptoError) m
          | .ok pt =>
            match utf8Decode pt with
            | none => .ret (some .parseError) m
            | some chars =>
              match unmarshalMap chars with
              | none => .ret (some .parseError) m
              | some entries =>
                .ret none (entries.foldl (fun s kv => insertSecret s kv.1 kv.2) m)

/-- Claim C4 (counterexample). The claim says every load that returns an
error leaves the store exactly as before. But `LoadFromDotEnvFile`
merges lines into the store *while scanning*; when the scanner then
reports a read error, the call returns an error with the already-scanned
lines merged: here the store gained `A=1` although the call errored. -/
theorem claimC4_counterexample :
    Manager.LoadFromDotEnvFile [] (.content [['A', '=', '1']] true) =
      (some Manager.LoadErr.ioError, [(['A'], ['1'])]) ∧
    ([(['A'], ['1'])] : Store) ≠ ([] : Store) := by
  constructor
  · decide
  · decide

/-- Claim C4 (amended): `LoadFromFile` and `LoadEncryptedFromFile` are
all-or-nothing — whenever they return an error the store is exactly as
before; `LoadFromDotEnvFile` is all-or-nothing for a missing file and an
open failure, but when a read error occurs mid-scan it returns `IOError`
with the lines read so far already merged into the store. -/
theorem claimC4_allOrNothing :
    (∀ (m : Store) (f : Manager.FileInput) (e : Manager.LoadErr) (m2 : Store),
      Manager.LoadFromFile m f = (some e, m2) → m2 = m) ∧
    (∀ (m : Store) (f : Manager.FileInput) (key : List Nat) (e : Manager.LoadErr) (m2 : Store),
      Manager.LoadEncryptedFromFile m f key = .ret (some e) m2 → m2 = m) ∧
    (∀ (m : Store), (Manager.LoadFromDotEnvFile m .missing).2 = m ∧
      (Manager.LoadFromDotEnvFile m .openFail).2 = m) ∧
    (∀ (m : Store) (lines : List Str),
      Manager.LoadFromDotEnvFile m (.content lines true) =
        (some .ioError, lines.foldl Manager.processLine m)) := by
  refine ⟨?_, ?_, ?_, ?_⟩
  · intro m f e m2 h
    cases f with
    | missing => injection h with h1 h2; exact h2.symm
    | unreadable => injection h with h1 h2; exact h2.symm
    | content d =>
      simp only [Manager.LoadFromFile] at h
      split at h
      · injection h with h1 h2; exact h2.symm
      · injection h with h1 h2
        exact absurd h1 (by simp)
  · intro m f key e m2 h
    cases f with
    | missing => injection h with h1 h2; exact h2.symm
    | unreadable => injection h with h1 h2; exact h2.symm
    | content d =>
      simp only [Manager.LoadEncryptedFromFile] at h
      repeat' split at h
      all_goals
        first
          | (injection h with h1 h2; exact h2.symm)
          | (injection h with h1 h2; exact absurd h1 (by simp))
          | exact absurd h (by simp)
  · intro m
    exact ⟨rfl, rfl⟩
  · intro m lines
    rfl

/-- Witness for the amended C4 at concrete inputs: a parse failure on
`LoadFromFile` leaves the one-entry store unchanged. -/
theorem claimC4_allOrNothing_witness :
    ([(['k'], ['w'])] : Store) = [(['k'], ['w'])] :=
  claimC4_allOrNothing.1 [(['k'], ['w'])] (.content ['x']) Manager.LoadErr.parseError
    [(['k'], ['w'])] (by decide)

/-! Section C5: environment loading. -/

/-- An `os.Environ()` entry for the variable `name=value`. -/
def envString (nv : Str × Str) : Str := nv.1 ++ '=' :: nv.2

/-- Modelled from the spec (the claim's reading of `load_from_env`):
for each environment variable whose *name* starts with the prefix,
insert the name with the prefix stripped, keeping the value; all other
variables are ignored. -/
def specLoadFromEnv (pairs : List (Str × Str)) (pfx : Str) (m : Store) : Store :=
  pairs.foldl (fun s nv =>
    if pfx.isPrefixOf nv.1 then insertSecret s (nv.1.drop pfx.length) nv.2 else s) m

lemma splitFirstEq_marker : ∀ (n v : Str), ¬ '=' ∈ n →
    splitFirstEq (n ++ '=' :: v) = some (n, v)
  | [], v, _ => by simp [splitFirstEq]
  | c :: n, v, h => by
    rw [List.cons_append, splitFirstEq,
      if_neg (fun he => h (by rw [he]; exact List.mem_cons_self _ _)),
      splitFirstEq_marker n v (fun hm => h (List.mem_cons_of_mem c hm))]

lemma isPrefixOf_envString : ∀ (pfx n v : Str), ¬ '=' ∈ pfx → ¬ '=' ∈ n →
    pfx.isPrefixOf (n ++ '=' :: v) = pfx.isPrefixOf n
  | [], n, v, _, _ => by simp [List.isPrefixOf]
  | p :: pfx, [], v, hp, _ => by
    rw [List.nil_append]
    have hne : (p == '=') = false := by
      simp only [beq_eq_false_iff_ne, ne_eq]
      exact fun he => hp (by rw [he]; exact List.mem_cons_self _ _)
    simp [List.isPrefixOf, hne]
  | p :: pfx, c :: n, v, hp, hn => by
    rw [List.cons_append]
    show (p == c && pfx.isPrefixOf (n ++ '=' :: v)) = (p == c && pfx.isPrefixOf n)
    rw [isPrefixOf_envString pfx n v (fun hm => hp (List.mem_cons_of_mem p hm))
      (fun hm => hn (List.mem_cons_of_mem c hm))]

lemma loadFromEnvStep_envString (pfx n v : Str) (s : Store)
    (hp : ¬ '=' ∈ pfx) (hn : ¬ '=' ∈ n) :
    Manager.loadFromEnvStep pfx s (envString (n, v)) =
      if pfx.isPrefixOf n then insertSecret s (n.drop pfx.length) v else s := by
  rw [Manager.loadFromEnvStep]
  simp only [envString]
  rw [isPrefixOf_envString pfx n v hp hn]
  by_cases h : pfx.isPrefixOf n
  · rw [if_pos h, if_pos h]
    simp only [splitFirstEq_marker n v hn]
    rw [trimPfx, if_pos h]
  · rw [if_neg (by simp [h]), if_neg (by simp [h])]

/-- Claim C5 (counterexample). The claim says the match is a prefix test
on the variable *name*; the code tests the prefix against the whole
`"NAME=VALUE"` entry. With prefix `"A="` and environment `A=b`: the
name `A` does not start with `A=`, so the claim says nothing is
inserted; the code matches the entry `"A=b"`, fails to strip the
prefix (`TrimPrefix` is a no-op here) and inserts `A=b`. -/
theorem claimC5_counterexample :
    Manager.LoadFromEnv [envString (['A'], ['b'])] ['A', '='] [] = [(['A'], ['b'])] ∧
    specLoadFromEnv [(['A'], ['b'])] ['A', '='] [] = [] := by
  constructor
  · decide
  · decide

/-- Claim C5 (amended): whenever neither the prefix nor any variable name
contains `'='` (true of every well-formed environment and every name
prefix), `LoadFromEnv` behaves exactly as the claim says: it inserts,
for each variable whose name starts with the prefix, the name with the
prefix removed mapped to the variable's value, and ignores the rest.
In general the code's prefix test is against the whole `NAME=VALUE`
entry string. -/
theorem claimC5_loadFromEnv (pairs : List (Str × Str)) (pfx : Str) (m : Store)
    (hp : ¬ '=' ∈ pfx) (hn : ∀ nv ∈ pairs, ¬ '=' ∈ nv.1) :
    Manager.LoadFromEnv (pairs.map envString) pfx m = specLoadFromEnv pairs pfx m := by
  induction pairs generalizing m with
  | nil => rfl
  | cons nv pairs ih =>
    obtain ⟨n, v⟩ := nv
    rw [Manager.LoadFromEnv, List.map_cons, List.foldl_cons,
      loadFromEnvStep_envString pfx n v m hp (hn (n, v) (by simp))]
    rw [specLoadFromEnv, List.foldl_cons]
    exact ih _ (fun nv hm => hn nv (List.mem_cons_of_mem _ hm))

/-- Witness for the amended C5: the spec's own example environment. -/
theorem claimC5_loadFromEnv_witness :
    Manager.LoadFromEnv
        [envString (['P', 'F', 'X', '_', 'K'], ['1']), envString (['O', 'T', 'H'], ['2'])]
        ['P', 'F', 'X', '_'] [] =
      specLoadFromEnv [(['P', 'F', 'X', '_', 'K'], ['1']), (['O', 'T', 'H'], ['2'])]
        ['P', 'F', 'X', '_'] [] :=
  claimC5_loadFromEnv [(['P', 'F', 'X', '_', 'K'], ['1']), (['O', 'T', 'H'], ['2'])]
    ['P', 'F', 'X', '_'] [] (by decide) (by decide)

/-! Section C6: dotenv parsing, trimming and splitting facts. -/

/-- A white-space prefix does not change `TrimSpace`. -/
lemma trimLeftSpace_append_ws (ws x : Str) (h : ∀ c ∈ ws, isSpaceGo c = true) :
    trimLeftSpace (ws ++ x) = trimLeftSpace x := by
  rw [trimLeftSpace, trimLeftSpace, List.dropWhile_append]
  rw [if_pos]
  rw [List.isEmpty_iff, List.dropWhile_eq_nil_iff]
  exact h

lemma trimRightSpace_append_ws (x ws : Str) (h : ∀ c ∈ ws, isSpaceGo c = true) :
    trimRightSpace (x ++ ws) = trimRightSpace x := by
  rw [trimRightSpace, trimRightSpace, List.reverse_append, List.dropWhile_append]
  rw [if_pos]
  rw [List.isEmpty_iff, List.dropWhile_eq_nil_iff]
  intro c hc
  exact h c (List.mem_reverse.mp hc)

lemma trimSpace_append_left_ws (ws x : Str) (h : ∀ c ∈ ws, isSpaceGo c = true) :
    trimSpace (ws ++ x) = trimSpace x := by
  rw [trimSpace, trimSpace, trimLeftSpace_append_ws ws x h]

lemma trimSpace_append_right_ws (x ws : Str) (h : ∀ c ∈ ws, isSpaceGo c = true) :
    trimSpace (x ++ ws) = trimSpace x := by
  rw [trimSpace, trimSpace, trimLeftSpace, trimLeftSpace, List.dropWhile_append]
  by_cases he : (List.dropWhile isSpaceGo x).isEmpty = true
  · rw [if_pos he]
    rw [List.isEmpty_iff] at he
    rw [he]
    have : List.dropWhile isSpaceGo ws = [] := List.dropWhile_eq_nil_iff.mpr h
    rw [this]
  · rw [if_neg he]
    exact trimRightSpace_append_ws _ ws h

/-- The head of a trimmed non-blank string survives right-trimming. -/
lemma trimRightSpace_cons_keep (c : Char) (t : Str) (hc : isSpaceGo c = false) :
    ∃ t2, trimRightSpace (c :: t) = c :: t2 := by
  rw [trimRightSpace, show (c :: t).reverse = t.reverse ++ [c] from by simp]
  rw [List.dropWhile_append]
  by_cases he : (List.dropWhile isSpaceGo t.reverse).isEmpty = true
  · rw [if_pos he]
    exact ⟨[], by simp [List.dropWhile, hc]⟩
  · rw [if_neg he]
    exact ⟨(List.dropWhile isSpaceGo t.reverse).reverse, by simp⟩

lemma dropWhile_head_false {p : Char → Bool} :
    ∀ {l c t}, List.dropWhile p l = c :: t → p c = false := by
  intro l
  induction l with
  | nil => intro c t h; exact absurd h (by simp)
  | cons a l ih =>
    intro c t h
    rw [List.dropWhile] at h
    by_cases hp : p a
    · simp only [hp] at h
      exact ih h
    · have hp2 : p a = false := Bool.eq_false_iff.mpr hp
      simp only [hp2] at h
      injection h with h1 _
      rw [← h1]
      exact hp2

/-- Splitting never finds `'='` in a string without one. -/
lemma splitFirstEq_eq_none : ∀ (l : Str), ¬ '=' ∈ l → splitFirstEq l = none
  | [], _ => rfl
  | c :: l, h => by
    rw [splitFirstEq, if_neg (fun he => h (by rw [he]; exact List.mem_cons_self _ _)),
      splitFirstEq_eq_none l (fun hm => h (List.mem_cons_of_mem c hm))]

lemma splitFirstEq_isSome : ∀ (l : Str), '=' ∈ l → ∃ k v, splitFirstEq l = some (k, v)
  | [], h => absurd h (by simp)
  | c :: l, h => by
    by_cases hc : c = '='
    · exact ⟨[], l, by rw [splitFirstEq, if_pos hc]⟩
    · have hm : '=' ∈ l := by
        rcases List.mem_cons.mp h with h1 | h1
        · exact absurd h1.symm hc
        · exact h1
      obtain ⟨k, v, hkv⟩ := splitFirstEq_isSome l hm
      refine ⟨c :: k, v, ?_⟩
      rw [splitFirstEq, if_neg hc, hkv]

/-- Splitting ignores a suffix after the first `'='`. -/
lemma splitFirstEq_append_right : ∀ (l t k v : Str),
    splitFirstEq l = some (k, v) → splitFirstEq (l ++ t) = some (k, v ++ t)
  | [], _, _, _, h => absurd h (by simp [splitFirstEq])
  | c :: l, t, k, v, h => by
    rw [splitFirstEq] at h
    by_cases hc : c = '='
    · rw [if_pos hc] at h
      injection h with h
      injection h with h1 h2
      subst h1; subst h2
      rw [List.cons_append, splitFirstEq, if_pos hc]
    · rw [if_neg hc] at h
      rw [List.cons_append, splitFirstEq, if_neg hc]
      match hs : splitFirstEq l with
      | none => rw [hs] at h; exact absurd h (by simp)
      | some (k2, v2) =>
        rw [hs] at h
        injection h with h
        injection h with h1 h2
        subst h1; subst h2
        rw [splitFirstEq_append_right l t k2 v2 hs]

/-- Splitting skips an `'='`-free prefix. -/
lemma splitFirstEq_append_left : ∀ (ws l : Str), ¬ '=' ∈ ws →
    splitFirstEq (ws ++ l) =
      (splitFirstEq l).map (fun kv => (ws ++ kv.1, kv.2))
  | [], l, _ => by simp
  | c :: ws, l, h => by
    rw [List.cons_append, splitFirstEq,
      if_neg (fun he => h (by rw [he]; exact List.mem_cons_self _ _)),
      splitFirstEq_append_left ws l (fun hm => h (List.mem_cons_of_mem c hm))]
    match splitFirstEq l with
    | none => rfl
    | some (k2, v2) => rfl

lemma quoteCond_iff (v : Str) :
    (1 < v.length ∧ (v.getD 0 ' ' = '"' ∨ v.getD 0 ' ' = '\'') ∧
      v.getD 0 ' ' = v.getD (v.length - 1) ' ') ↔
    (2 ≤ v.length ∧ (v.head? = some '"' ∨ v.head? = some '\'') ∧ v.head? = v.getLast?) := by
  match v with
  | [] => simp
  | [c] => simp
  | c :: d :: u =>
    obtain ⟨x, hx⟩ : ∃ x, (d :: u).getLast? = some x := by
      cases hg : (d :: u).getLast? with
      | none => exact absurd (List.getLast?_eq_none_iff.mp hg) (by simp)
      | some y => exact ⟨y, rfl⟩
    have hgd : (c :: d :: u).getD ((c :: d :: u).length - 1) ' ' = x := by
      rw [List.getD_eq_getElem?_getD,
        show (c :: d :: u).length - 1 = u.length + 1 from by simp,
        List.getElem?_cons_succ,
        show (u.length : Nat) = (d :: u).length - 1 from by simp,
        ← List.getLast?_eq_getElem?, hx]
      rfl
    have hgl : (c :: d :: u).getLast? = some x := by
      rw [List.getLast?_cons_cons]
      exact hx
    have hux : (d :: u)[u.length] = x := by
      have h2 : (d :: u)[u.length]? = some x := by
        rw [show (u.length : Nat) = (d :: u).length - 1 from by simp, ← List.getLast?_eq_getElem?]
        exact hx
      rw [List.getElem?_eq_getElem (by simp)] at h2
      simpa using h2
    simp [hgd, hgl, hx, hux]

/-- Modelled from the spec (the claim's reading of one dotenv line):
skip blank lines and lines whose first non-space character is `#`;
split the remaining line on its first `=` (skip it if there is none);
trim whitespace from key and value; strip one surrounding pair of
quotes exactly when the trimmed value starts and ends with the same
quote character (a pair needs at least two characters). -/
def specProcessLine (s : Store) (raw : Str) : Store :=
  if trimLeftSpace raw = [] then s
  else if (trimLeftSpace raw).head? = some '#' then s
  else match splitFirstEq raw with
    | none => s
    | some (k0, v0) =>
      let key := trimSpace k0
      let value := trimSpace v0
      let value :=
        if 2 ≤ value.length ∧ (value.head? = some '"' ∨ value.head? = some '\'') ∧
            value.head? = value.getLast? then
          (value.drop 1).dropLast
        else value
      insertSecret s key value

lemma processLine_eq_spec (s : Store) (raw : Str) :
    Manager.processLine s raw = specProcessLine s raw := by
  by_cases hb : trimLeftSpace raw = []
  · have ht : trimSpace raw = [] := by rw [trimSpace, hb]; rfl
    simp only [Manager.processLine, specProcessLine, ht, hb]
    simp
  · obtain ⟨c, t, hct⟩ : ∃ c t, trimLeftSpace raw = c :: t := by
      cases h : trimLeftSpace raw with
      | nil => exact absurd h hb
      | cons c t => exact ⟨c, t, rfl⟩
    have hc : isSpaceGo c = false := dropWhile_head_false (p := isSpaceGo) hct
    obtain ⟨t2, ht2⟩ := trimRightSpace_cons_keep c t hc
    have hts : trimSpace raw = c :: t2 := by rw [trimSpace, hct, ht2]
    have hws1 : ∀ ch ∈ List.takeWhile isSpaceGo raw, isSpaceGo ch = true :=
      fun ch hm => List.mem_takeWhile_imp hm
    have hraw1 : raw = List.takeWhile isSpaceGo raw ++ (c :: t) := by
      conv_lhs => rw [← List.takeWhile_append_dropWhile (p := isSpaceGo) (l := raw)]
      rw [show List.dropWhile isSpaceGo raw = c :: t from hct]
    have hws2 : c :: t = (c :: t2) ++ (List.takeWhile isSpaceGo (c :: t).reverse).reverse := by
      rw [← ht2, trimRightSpace]
      conv_lhs =>
        rw [← List.reverse_reverse (c :: t),
          ← List.takeWhile_append_dropWhile (p := isSpaceGo) (l := (c :: t).reverse)]
      rw [List.reverse_append]
    have hws2s : ∀ ch ∈ (List.takeWhile isSpaceGo (c :: t).reverse).reverse,
        isSpaceGo ch = true :=
      fun ch hm => List.mem_takeWhile_imp (List.mem_reverse.mp hm)
    simp only [Manager.processLine, specProcessLine, hts, hct]
    by_cases hsh : c = '#'
    · subst hsh
      simp [List.isPrefixOf]
    · have hpre : (['#'].isPrefixOf (c :: t2)) = false := by
        rw [List.isPrefixOf_cons₂]
        simp [beq_eq_false_iff_ne]
        exact fun he => hsh he.symm
      have hhead : ¬ ((c :: t).head? = some '#') := by
        simp
        exact hsh
      rw [if_neg (by simp), if_neg (by simp [hpre]), if_neg (by simp), if_neg hhead]
      by_cases he : '=' ∈ (c :: t2)
      · obtain ⟨k1, v1, hs1⟩ := splitFirstEq_isSome _ he
        have hnw : ¬ '=' ∈ List.takeWhile isSpaceGo raw := by
          intro hm
          have := hws1 '=' hm
          exact absurd this (by decide)
        have hs2 : splitFirstEq ((c :: t2) ++ (List.takeWhile isSpaceGo (c :: t).reverse).reverse) =
            some (k1, v1 ++ (List.takeWhile isSpaceGo (c :: t).reverse).reverse) :=
          splitFirstEq_append_right _ _ _ _ hs1
        have hs3 : splitFirstEq raw =
            some (List.takeWhile isSpaceGo raw ++ k1,
              v1 ++ (List.takeWhile isSpaceGo (c :: t).reverse).reverse) := by
          conv_lhs => rw [hraw1, hws2]
          rw [splitFirstEq_append_left _ _ hnw, hs2]
          rfl
        rw [hs1, hs3]
        simp only
        rw [trimSpace_append_left_ws _ _ hws1, trimSpace_append_right_ws _ _ hws2s]
        rw [if_congr (quoteCond_iff (trimSpace v1)) rfl rfl]
      · have hn1 : splitFirstEq (c :: t2) = none := splitFirstEq_eq_none _ he
        have hn2 : splitFirstEq raw = none := by
          apply splitFirstEq_eq_none
          intro hm
          rw [hraw1, hws2] at hm
          rcases List.mem_append.mp hm with h1 | h1
          · exact absurd (hws1 '=' h1) (by decide)
          · rcases List.mem_append.mp h1 with h2 | h2
            · exact he h2
            · exact absurd (hws2s '=' h2) (by decide)
        rw [hn1, hn2]

/-- Claim C6 (confirmed). On every input file content (any line list, no
read error), `LoadFromDotEnvFile` succeeds and produces exactly the
mapping described by the claim: blank and `#` lines skipped, lines
without `=` skipped, split at the first `=`, both sides trimmed, one
surrounding pair of matching quotes stripped. -/
theorem claimC6_dotenvParsing (m : Store) (lines : List Str) :
    Manager.LoadFromDotEnvFile m (.content lines false) =
      (none, lines.foldl specProcessLine m) := by
  show (none, lines.foldl Manager.processLine m) = (none, lines.foldl specProcessLine m)
  have h : Manager.processLine = specProcessLine :=
    funext fun s => funext fun raw => processLine_eq_spec s raw
  rw [h]

/-! Section C8: reachable stores and name validation. -/

/-- Store states reachable through the mutating operations the claim
names (`Set` and the load operations), starting from a fresh manager. -/
inductive Reachable : Store → Prop
  | empty : Reachable []
  | set (s : Store) (k v : Str) : Reachable s → Reachable (Manager.Set s k v)
  | loadEnv (s : Store) (environ : List Str) (pfx : Str) :
      Reachable s → Reachable (Manager.LoadFromEnv environ pfx s)
  | loadDotEnv (s : Store) (f : Manager.DotEnvInput) :
      Reachable s → Reachable (Manager.LoadFromDotEnvFile s f).2
  | loadFile (s : Store) (f : Manager.FileInput) :
      Reachable s → Reachable (Manager.LoadFromFile s f).2

lemma lookupSecret_insertSecret (s : Store) (k v : Str) :
    lookupSecret (insertSecret s k v) k = some v := by
  induction s with
  | nil => simp [insertSecret, lookupSecret]
  | cons kv0 rest ih =>
    obtain ⟨k0, v0⟩ := kv0
    rw [insertSecret]
    by_cases h1 : strLt k k0 = true
    · rw [if_pos h1, lookupSecret, if_pos rfl]
    · rw [if_neg h1]
      by_cases h2 : k = k0
      · rw [if_pos h2, lookupSecret, if_pos rfl]
      · rw [if_neg h2, lookupSecret, if_neg h2]
        exact ih

lemma lookupSecret_insertSecret_ne (s : Store) (k v k2 : Str) (hne : k2 ≠ k) :
    lookupSecret (insertSecret s k v) k2 = lookupSecret s k2 := by
  induction s with
  | nil => simp [insertSecret, lookupSecret, hne]
  | cons kv0 rest ih =>
    obtain ⟨k0, v0⟩ := kv0
    rw [insertSecret]
    by_cases h1 : strLt k k0 = true
    · rw [if_pos h1]
      show (if k2 = k then some v else lookupSecret ((k0, v0) :: rest) k2) =
        lookupSecret ((k0, v0) :: rest) k2
      rw [if_neg hne]
    · rw [if_neg h1]
      by_cases h2 : k = k0
      · subst h2
        rw [if_pos rfl]
        show (if k2 = k then some v else lookupSecret rest k2) =
          (if k2 = k then some v0 else lookupSecret rest k2)
        rw [if_neg hne, if_neg hne]
      · rw [if_neg h2]
        show (if k2 = k0 then some v0 else lookupSecret (insertSecret rest k v) k2) =
          (if k2 = k0 then some v0 else lookupSecret rest k2)
        by_cases h3 : k2 = k0
        · rw [if_pos h3, if_pos h3]
        · rw [if_neg h3, if_neg h3, ih]

/-- Claim C8 (counterexample). Not every reachable store has only
non-empty names: `Set` validates nothing, so `Set ∅ "" "v"` reaches a
store whose single entry has the empty-string name. -/
theorem claimC8_counterexample :
    ¬ (∀ (s : Store), Reachable s → ∀ kv ∈ s, kv.1 ≠ []) := by
  intro h
  exact h (Manager.Set [] [] ['v']) (Reachable.set [] [] ['v'] Reachable.empty)
    ([], ['v']) (by decide) rfl

/-- Claim C8 (amended): names are inserted verbatim with no validation;
from any reachable store, `Set` with the empty name reaches a store
mapping the empty name (a dotenv line starting with `=`, or an
environment entry whose name equals the prefix, behave likewise). -/
theorem claimC8_emptyNameReachable (s : Store) (v : Str) (hr : Reachable s) :
    Reachable (Manager.Set s [] v) ∧ lookupSecret (Manager.Set s [] v) [] = some v :=
  ⟨Reachable.set s [] v hr, lookupSecret_insertSecret s [] v⟩

/-- Witness for the amended C8 from the empty store. -/
theorem claimC8_emptyNameReachable_witness :
    Reachable (Manager.Set [] [] ['v']) ∧
    lookupSecret (Manager.Set [] [] ['v']) [] = some ['v'] :=
  claimC8_emptyNameReachable [] ['v'] Reachable.empty

/-! Section C9: GetAll returns a defensive copy. -/

/-- Reading a map cell of the heap (heap = list of map cells; a
`Manager` handle is the index of its `secrets` map). -/
def heapGet (h : List Store) (r : Nat) : Store := h.getD r []

/-- The function `Manager.GetAll` (`secrets.go:114`): allocate a fresh map, copy
every entry of the manager's map into it with the `for k, v := range`
loop, and return the reference to the fresh cell. -/
def Manager.GetAll (h : List Store) (r : Nat) : Nat × List Store :=
  (h.length, h ++ [(heapGet h r).foldl (fun acc kv => insertSecret acc kv.1 kv.2) []])

/-- A caller mutating a map cell through its reference
(`result[k] = v` on the mapping `GetAll` returned). -/
def heapAssign (h : List Store) (r : Nat) (k v : Str) : List Store :=
  h.set r (insertSecret (heapGet h r) k v)

/-- Claim C9 (confirmed). `GetAll` returns a mapping equal to the store's
current mapping, and it is an independent copy: assigning into the
returned mapping leaves the store's own mapping (hence every subsequent
`Get`) unchanged. -/
theorem claimC9_getAllCopy (h : List Store) (r : Nat) (k v : Str)
    (hr : r < h.length) (hs : SortedStore (heapGet h r)) :
    heapGet (Manager.GetAll h r).2 (Manager.GetAll h r).1 = heapGet h r ∧
    heapGet (heapAssign (Manager.GetAll h r).2 (Manager.GetAll h r).1 k v) r = heapGet h r := by
  have hcopy : heapGet (Manager.GetAll h r).2 (Manager.GetAll h r).1 = heapGet h r := by
    show heapGet (h ++ [(heapGet h r).foldl _ []]) h.length = heapGet h r
    rw [heapGet, List.getD_eq_getElem?_getD, List.getElem?_append_right (Nat.le_refl _)]
    simp only [Nat.sub_self, List.getElem?_cons_zero, Option.getD_some]
    exact foldl_insert_sorted_nil _ hs
  refine ⟨hcopy, ?_⟩
  show heapGet ((h ++ [_]).set h.length _) r = heapGet h r
  rw [heapGet, heapGet, List.getD_eq_getElem?_getD, List.getD_eq_getElem?_getD,
    List.getElem?_set_ne (by omega)]
  rw [List.getElem?_append_left (by omega)]

/-- Witness for C9 on a one-cell heap. -/
theorem claimC9_getAllCopy_witness :
    heapGet (Manager.GetAll [[(['a'], ['1'])]] 0).2 (Manager.GetAll [[(['a'], ['1'])]] 0).1 =
      heapGet [[(['a'], ['1'])]] 0 ∧
    heapGet (heapAssign (Manager.GetAll [[(['a'], ['1'])]] 0).2
      (Manager.GetAll [[(['a'], ['1'])]] 0).1 ['b'] ['2']) 0 = heapGet [[(['a'], ['1'])]] 0 :=
  claimC9_getAllCopy [[(['a'], ['1'])]] 0 ['b'] ['2'] (by decide) (by decide)

/-- Claim C10 (confirmed). `LoadFromEnvVar key`: when the environment
variable exists with value `v`, it returns `true` and inserts the
secret under the full, unstripped variable name; when it does not
exist, it returns `false` and leaves the store unchanged. -/
theorem claimC10_loadFromEnvVar (environ : List (Str × Str)) (m : Store) (key v : Str) :
    (environ.lookup key = some v →
      Manager.LoadFromEnvVar environ m key = (true, insertSecret m key v) ∧
      lookupSecret (Manager.LoadFromEnvVar environ m key).2 key = some v) ∧
    (environ.lookup key = none → Manager.LoadFromEnvVar environ m key = (false, m)) := by
  constructor
  · intro h
    constructor
    · rw [Manager.LoadFromEnvVar, h]
    · rw [Manager.LoadFromEnvVar, h]
      exact lookupSecret_insertSecret m key v
  · intro h
    rw [Manager.LoadFromEnvVar, h]

/-- Witness for C10: present and absent variables. -/
theorem claimC10_loadFromEnvVar_witness :
    (Manager.LoadFromEnvVar [(['K'], ['v'])] [] ['K'] = (true, insertSecret [] ['K'] ['v']) ∧
      lookupSecret (Manager.LoadFromEnvVar [(['K'], ['v'])] [] ['K']).2 ['K'] = some ['v']) ∧
    Manager.LoadFromEnvVar [(['K'], ['v'])] [] ['X'] = (false, []) :=
  ⟨(claimC10_loadFromEnvVar [(['K'], ['v'])] [] ['K'] ['v']).1 (by decide),
    (claimC10_loadFromEnvVar [(['K'], ['v'])] [] ['X'] ['v']).2 (by decide)⟩
